import Mathlib

/-!
Verification development for the camproxy repository: shallow embeddings of
the BlobRef codec, the PerCache put/get path, the retry transport, the MIME
sniffer, the download-path response writer, the PerCache shutdown/eviction
path, the trace storage decorator, the safe base-filename helper, and the
lazy-attribute uploader, with theorems settling the stated properties.

Conventions: Go byte slices are `List Nat` (each element < 256 where it
matters), Go strings that are manipulated bytewise are `List Char`, Go maps
and ordered KV stores are association lists (newest binding first, as a Go
map overwrite / KV Set is modelled by consing the new binding in front and
looking up the first match).
-/

namespace Camproxy

/-- Go byte slice. -/
abbrev GoBytes := List Nat

/-- First-match association-list lookup (models a Go map / KV `Get`). -/
def alookup {α β : Type} [DecidableEq α] : List (α × β) → α → Option β
| [], _ => none
| kv :: rest, k => if kv.1 = k then some kv.2 else alookup rest k

/-! ## Retry transport (camutil/transport.go)

`retryTransport.RoundTrip` (transport.go:34-103) loops: perform the
round-trip; if it yielded no error, a non-nil response and a status code
below 500, return it at once; otherwise rebuild the request body from
`GetBody` (always possible for the replayable bodies the claim is about,
since transport.go:45-58 installs a buffering `GetBody` whenever one is
missing) and ask the retry iterator for another attempt; when the iterator
is exhausted the outcome of the last attempt is returned.

An attempt's outcome is `Except String Nat`: a Go `http.RoundTripper`
returns either a response (here its status code) or an error, never both
and never neither.  The strategy's wall-clock limits (MaxDuration and the
0.9-of-context-deadline clamp) are real-time behaviour and are not part of
this embedding; the attempt count limit (`MaxCount`, rogpeppe/retry's cap
on the total number of attempts) is modelled by `maxCount`. -/

/-- The return-at-once test of transport.go:71: no error, a response, and
status code below 500. -/
def respOK : Except String Nat → Bool
| Except.ok sc => decide (sc < 500)
| Except.error _ => false

/-- The retry loop of transport.go:62-96. `outcomes i` is what the wrapped
round-trip returns on attempt `i` (0-based); `fuel` is how many more times
the iterator will allow `Next`. Returns (number of attempts made, outcome
returned). -/
def roundTripAux (outcomes : Nat → Except String Nat) (i : Nat) : Nat → Nat × Except String Nat
| 0 => (i + 1, outcomes i)
| fuel + 1 =>
  if respOK (outcomes i) then (i + 1, outcomes i)
  else roundTripAux outcomes (i + 1) fuel

/-- `retryTransport.RoundTrip` for a replayable request: at most `maxCount`
attempts in total (`maxCount ≥ 1`; rogpeppe/retry always grants the first
attempt). -/
def retryRoundTrip (outcomes : Nat → Except String Nat) (maxCount : Nat) : Nat × Except String Nat :=
roundTripAux outcomes 0 (maxCount - 1)

/-! ## MIME sniffer (camutil/mime.go)

`MIMETypeFromReader` (mime.go:24-39) copies at most 1024 bytes of the
reader into a buffer (`io.Copy` over `io.LimitReader(r, 1024)`), matches
the buffer against the magic table, and returns the match together with a
reader that replays the buffered bytes followed by either the rest of the
original reader (no copy error) or the copy error (`errReader`,
mime.go:103-109).

A reader is modelled as the byte sequence it will yield followed by the
way it ends: `terr = none` is a clean EOF, `terr = some e` means after
`data` the reader keeps returning error `e`.  The copy consumes the error
only when the stream ends before the 1024-byte limit; with 1024 or more
bytes available `io.LimitReader` stops the copy without touching the
underlying reader again. The magic table (`mimemagic.Match`) is an
external library, abstracted as the parameter `sniff`. -/

structure ByteStream where
  data : GoBytes
  terr : Option String
deriving DecidableEq

/-- `MIMETypeFromReader` over a (non-nil) reader. Returns (the sniffed
type, how many bytes were consumed from the underlying reader, the
returned reader as the stream it will yield). -/
def mimeTypeFromReader (sniff : GoBytes → String) (r : ByteStream) : String × Nat × ByteStream :=
  let buf := r.data.take 1024
  let mime := sniff buf
  if r.data.length < 1024 ∧ r.terr.isSome then
    (mime, r.data.length, ⟨buf, r.terr⟩)
  else
    (mime, min 1024 r.data.length, ⟨buf ++ r.data.drop 1024, r.terr⟩)

/-! ## BlobRef codec (perkeep blob.Ref as used by camutil)

A `blob.Ref` is a hash name plus raw digest bytes. The repository deals in
the two digests perkeep registers, `sha1` (20 bytes) and `sha224`
(28 bytes). `blob.Parse` accepts the canonical lowercase-hex text form
produced by `Ref.String()`; `RefToBase64` (camutil/up.go:488-500) renders
the short form `<hash>-<urlsafe base64 of digest>`, and `Base64ToRef`
(part_016:195-229) decodes the short form by locating the first dash,
base64url-decoding the remainder into a 64-byte scratch buffer,
lower-casing the hash name, re-serialising as canonical hex and reparsing
with `blob.Parse`. -/

structure BlobRef where
  hashName : List Char
  digest : List Nat
deriving DecidableEq

/-- Digest size registered for a hash name (perkeep blob: sha1 and sha224). -/
def hashSize (name : List Char) : Option Nat :=
  if name = "sha1".toList then some 20
  else if name = "sha224".toList then some 28
  else none

/-- blob.Ref.Valid(): the ref carries a digest of a registered hash. -/
def BlobRef.validB (br : BlobRef) : Bool :=
  match hashSize br.hashName with
  | some sz => decide (br.digest.length = sz)
  | none => false

/-- A Lean value standing for a well-formed Go blob.Ref: registered hash,
digest of the hash's size, values in byte range. -/
def GoodRef (br : BlobRef) : Prop :=
  hashSize br.hashName = some br.digest.length ∧ ∀ b ∈ br.digest, b < 256

instance decGoodRef (br : BlobRef) : Decidable (GoodRef br) :=
  inferInstanceAs (Decidable (_ = _ ∧ ∀ b ∈ br.digest, b < 256))

/-- Lowercase hex digit of a nibble. -/
def hexDigitChar (n : Nat) : Char :=
  if n < 10 then Char.ofNat (48 + n) else Char.ofNat (87 + n)

/-- Value of a lowercase hex digit (perkeep's parse accepts only 0-9a-f). -/
def unhexL (c : Char) : Option Nat :=
  if '0' ≤ c ∧ c ≤ '9' then some (c.toNat - 48)
  else if 'a' ≤ c ∧ c ≤ 'f' then some (c.toNat - 87)
  else none

/-- hex.Encode: two lowercase hex digits per byte. -/
def hexEncode : List Nat → List Char
| [] => []
| b :: bs => hexDigitChar (b / 16) :: hexDigitChar (b % 16) :: hexEncode bs

/-- Hex decoding as perkeep's parse performs it: pairs of lowercase digits. -/
def hexDecode : List Char → Option (List Nat)
| [] => some []
| c1 :: c2 :: cs =>
  match unhexL c1, unhexL c2, hexDecode cs with
  | some h1, some h2, some bs => some ((16 * h1 + h2) :: bs)
  | _, _, _ => none
| _ => none

/-- Character of a sextet in the URL-safe base64 alphabet. -/
def b64Char (n : Nat) : Char :=
  if n < 26 then Char.ofNat (65 + n)
  else if n < 52 then Char.ofNat (97 + (n - 26))
  else if n < 62 then Char.ofNat (48 + (n - 52))
  else if n = 62 then '-' else '_'

/-- Sextet of a URL-safe base64 character. -/
def b64Val (c : Char) : Option Nat :=
  if 'A' ≤ c ∧ c ≤ 'Z' then some (c.toNat - 65)
  else if 'a' ≤ c ∧ c ≤ 'z' then some (c.toNat - 97 + 26)
  else if '0' ≤ c ∧ c ≤ '9' then some (c.toNat - 48 + 52)
  else if c = '-' then some 62
  else if c = '_' then some 63
  else none

/-- base64.URLEncoding.EncodeToString: three bytes to four characters,
with '=' padding on a final group of one or two bytes. -/
def b64Encode : List Nat → List Char
| [] => []
| [b1] => [b64Char (b1 / 4), b64Char (b1 % 4 * 16), '=', '=']
| [b1, b2] => [b64Char (b1 / 4), b64Char (b1 % 4 * 16 + b2 / 16), b64Char (b2 % 16 * 4), '=']
| b1 :: b2 :: b3 :: bs =>
  b64Char (b1 / 4) :: b64Char (b1 % 4 * 16 + b2 / 16) ::
    b64Char (b2 % 16 * 4 + b3 / 64) :: b64Char (b3 % 64) :: b64Encode bs

/-- base64.URLEncoding.Decode: four characters to three bytes, '=' padding
only closing the final group (Go's default, non-strict decoder does not
check the trailing bits). -/
def b64Decode : List Char → Option (List Nat)
| [] => some []
| c1 :: c2 :: c3 :: c4 :: cs =>
  match b64Val c1, b64Val c2 with
  | some v1, some v2 =>
    if c3 = '=' then
      if c4 = '=' ∧ cs = [] then some [v1 * 4 + v2 / 16] else none
    else
      match b64Val c3 with
      | some v3 =>
        if c4 = '=' then
          if cs = [] then some [v1 * 4 + v2 / 16, v2 % 16 * 16 + v3 / 4] else none
        else
          match b64Val c4, b64Decode cs with
          | some v4, some bs =>
            some ((v1 * 4 + v2 / 16) :: (v2 % 16 * 16 + v3 / 4) :: (v3 % 4 * 64 + v4) :: bs)
          | _, _ => none
      | none => none
  | _, _ => none
| _ => none

/-- Index of the first occurrence of a character (bytes.IndexByte). -/
def idxOf (c : Char) : List Char → Option Nat
| [] => none
| x :: xs => if x = c then some 0 else (idxOf c xs).map (· + 1)

/-- ASCII lower-casing of one character (bytes.ToLower acts bytewise). -/
def asciiLower (c : Char) : Char :=
  if 'A' ≤ c ∧ c ≤ 'Z' then Char.ofNat (c.toNat + 32) else c

/-- blob.Ref.String(): the canonical text form, hash name, a dash, then
the digest in lowercase hex. -/
def refString (br : BlobRef) : List Char :=
  br.hashName ++ '-' :: hexEncode br.digest

/-- blob.Parse: split at the first dash, look the hash name up, check the
hex half's length, decode it. (Perkeep also keeps refs of unregistered
hash names through parseUnknown; this repository only produces and
consumes sha1/sha224 refs, so that path stays outside the embedding and
is never taken by the round-trip of well-formed refs.) -/
def blobParse (s : List Char) : Option BlobRef :=
  match idxOf '-' s with
  | none => none
  | some i =>
    match hashSize (s.take i) with
    | none => none
    | some sz =>
      if (s.drop (i + 1)).length = 2 * sz then
        match hexDecode (s.drop (i + 1)) with
        | some d => some ⟨s.take i, d⟩
        | none => none
      else none

/-- RefToBase64 (camutil/up.go:488-500): for a valid ref, the hash name, a
dash, then the URL-safe base64 of the raw digest (the binary marshalling
is the hash name, a dash, then the digest bytes, so the slice past the
dash is exactly the digest); an invalid ref gives the empty string. -/
def RefToBase64 (br : BlobRef) : List Char :=
  if br.validB then br.hashName ++ '-' :: b64Encode br.digest else []

/-- Base64ToRef (part_016:195-229). The input is truncated to the 128-byte
scratch buffer; the first dash splits hash name from payload; the payload
is base64url-decoded (into a 64-byte buffer: a longer decode would
overflow it, modelled as failure); the hash name is lower-cased, the
digest re-rendered as lowercase hex, and the result parsed by blob.Parse. -/
def Base64ToRef (arg : List Char) : Option BlobRef :=
  let t := arg.take 128
  match idxOf '-' t with
  | none => none
  | some i =>
    match b64Decode (t.drop (i + 1)) with
    | none => none
    | some b =>
      if 64 < b.length then none
      else blobParse ((t.take i).map asciiLower ++ '-' :: hexEncode b)

/-! ## PerCache put/get (percache/percache.go)

`PerCache.Put` (percache.go:171-180) writes the byte stream through
`schema.WriteFileFromReader` into the wrapped content-addressed store (the
"/"-prefixed rows of the one badger KV) and, only when that returned
without error, stores the row `"," + nodeID → binary(file ref)`;
`PerCache.Get` (percache.go:151-169) reads that mapping row, opens a
`schema.FileReader` over the store, loads all chunks and returns the
reassembled bytes.

The perkeep schema layer is a library dependency (not code of this
repository); it is modelled from its contract: `WriteFileFromReader`
splits the stream into chunks, stores every chunk as a content-addressed
blob, stores a file blob naming the ordered chunk refs, and returns the
file blob's ref; `NewFileReader` plus `LoadAllChunks` fetches the file
blob and concatenates its chunks, failing when the mapping row, the file
blob or any chunk is absent. Content addressing is idealised as
collision-free: a blob's ref is the blob itself, so the "/"-row namespace
is the set of blobs it holds. The exact chunk boundaries are internal to
perkeep and are modelled as fixed-size splitting, which preserves the
contract that the chunk contents concatenate back to the input. The ways
`WriteFileFromReader` can fail are injected through `failAt`: the
`failAt`-th chunk write reports a store error. -/

inductive Blob where
| data (bs : GoBytes)
| file (name : GoBytes) (parts : List GoBytes)
deriving DecidableEq

/-- A file blob's identity (its ref under the idealised hash): the file
name and the ordered chunk refs, a chunk's ref being its bytes. -/
abbrev FileKey := GoBytes × List GoBytes

/-- PerCache state: the "," name-mapping rows and the "/" content rows of
the one badger store, split by their disjoint key prefixes. -/
structure PCState where
  names : List (GoBytes × FileKey)
  blobs : List Blob

/-- Nominal chunk size of the schema writer (the exact value is internal
to perkeep; any positive value satisfies the contract). -/
def chunkSpan : Nat := 65536

/-- Fixed-size chunking of a byte stream, structurally recursive on a
fuel that the length bounds (each step consumes at least one byte, so
`data.length` steps always suffice and the fuel never runs out early). -/
def splitChunksF : Nat → GoBytes → List GoBytes
| 0, _ => []
| fuel + 1, data =>
  if data = [] then []
  else data.take chunkSpan :: splitChunksF fuel (data.drop chunkSpan)

/-- Fixed-size chunking of a byte stream. -/
def splitChunks (data : GoBytes) : List GoBytes := splitChunksF data.length data

/-- The chunk-writing loop of the schema writer: receive each chunk into
the store in order; the `failAt`-th write of this call (0-based from `i`)
fails, modelling a store error. Returns the store after the writes that
did happen, and whether all writes succeeded. -/
def receiveChunks (blobs : List Blob) (chunks : List GoBytes) (i : Nat) (failAt : Option Nat) :
    List Blob × Bool :=
  match chunks with
  | [] => (blobs, true)
  | c :: cs =>
    if failAt = some i then (blobs, false)
    else receiveChunks (Blob.data c :: blobs) cs (i + 1) failAt

/-- schema.WriteFileFromReader, modelled from its contract (see the
section comment): write all chunks, then the file blob, and return the
file blob's key; `none` in the second component is the error case, in
which no file blob is stored and no key returned. -/
def writeFileFromReader (blobs : List Blob) (name data : GoBytes) (failAt : Option Nat) :
    List Blob × Option FileKey :=
  let chunks := splitChunks data
  match receiveChunks blobs chunks 0 failAt with
  | (bl, false) => (bl, none)
  | (bl, true) => (Blob.file name chunks :: bl, some (name, chunks))

/-- PerCache.Put (percache.go:171-180): run the schema writer; on error
return it, leaving the name rows untouched; on success store the mapping
row for `nodeID`. The Bool is "Put returned without error". -/
def PerCache.Put (st : PCState) (nodeID data : GoBytes) (failAt : Option Nat) : PCState × Bool :=
  match writeFileFromReader st.blobs nodeID data failAt with
  | (bl, none) => ({ st with blobs := bl }, false)
  | (bl, some fk) => (⟨(nodeID, fk) :: st.names, bl⟩, true)

/-- The schema reader's chunk loading: concatenate the blobs the parts
list names, failing when a chunk blob is absent from the store. -/
def readParts (blobs : List Blob) : List GoBytes → Option GoBytes
| [] => some []
| c :: cs =>
  if Blob.data c ∈ blobs then
    match readParts blobs cs with
    | some rest => some (c ++ rest)
    | none => none
  else none

/-- PerCache.Get (percache.go:151-169): read the mapping row (NotFound
when absent), fetch the file blob, load and concatenate all its chunks. -/
def PerCache.Get (st : PCState) (nodeID : GoBytes) : Option GoBytes :=
  match alookup st.names nodeID with
  | none => none
  | some fk =>
    if Blob.file fk.1 fk.2 ∈ st.blobs then readParts st.blobs fk.2 else none

/-! ## Lazy-attribute upload (camutil/up.go:216-243, part_009:236-266)

`Uploader.UploadFileLazyAttr` on the direct-write path: filter the
caller's attributes through `filterAttrs("camli", attrs)`; upload the
file (`UploadFileMIME`); when the upload failed or no attribute survived
the filter, return without touching permanodes; otherwise add
`camliContent → content ref` to the filtered attributes and call
`NewPermanode` with them — lazily: a permanode error is logged, the
zero (absent) permanode ref is returned and the upload still succeeds.
The upload and permanode calls contact the remote store and are
abstracted as the parameters `upload` and `newPermanode`. -/

/-- Go string attribute map (keys and values as character lists). -/
abbrev AttrMap := List (List Char × List Char)

/-- strings.HasPrefix. -/
def goHasPre (pre s : List Char) : Bool := decide (s.take pre.length = pre)

/-- filterAttrs (up.go:266-275): drop every attribute whose name starts
with the reserved marker. -/
def filterAttrs (skipPre : List Char) (attrs : AttrMap) : AttrMap :=
  attrs.filter (fun kv => !(goHasPre skipPre kv.1))

/-- Go map insert (overwrite any previous binding). -/
def mapSet (m : AttrMap) (k v : List Char) : AttrMap :=
  (k, v) :: m.filter (fun kv => decide (kv.1 ≠ k))

/-- Outcome of UploadFileLazyAttr: the content ref, the permanode ref (if
one was created), whether the call returned an error, and — for the
permanode-creation property — the attribute map passed to NewPermanode
when it was invoked. -/
structure UploadLA where
  content : List Char
  perma : Option (List Char)
  failed : Bool
  permaCall : Option AttrMap

/-- UploadFileLazyAttr, direct path (up.go:216-243). -/
def uploadFileLazyAttr (upload : Except Unit (List Char))
    (newPermanode : AttrMap → Except Unit (List Char)) (attrs : AttrMap) : UploadLA :=
  let filteredAttrs := filterAttrs "camli".toList attrs
  match upload with
  | Except.error _ => ⟨[], none, true, none⟩
  | Except.ok content =>
    if filteredAttrs = [] then ⟨content, none, false, none⟩
    else
      let withContent := mapSet filteredAttrs "camliContent".toList content
      match newPermanode withContent with
      | Except.ok p => ⟨content, some p, false, some withContent⟩
      | Except.error _ => ⟨content, none, false, some withContent⟩

/-! ## PerCache shutdown and eviction (percache/percache.go:126-149) -/

/-- badger Delete of one key. -/
def kvDel (rows : List (GoBytes × GoBytes)) (k : GoBytes) : List (GoBytes × GoBytes) :=
  rows.filter (fun kv => decide (kv.1 ≠ k))

/-- The "/" value prefix (percache.go:29). -/
def valPre : GoBytes := [47]

/-- Runtime view of the PerCache struct (percache.go:119-124): the badger
rows, whether the mutex is held, and whether the ristretto cache / the
badger db have been closed. The source struct has exactly the fields db,
cache, sto and mu: no `closing` mark exists. -/
structure PCRun where
  muLocked : Bool
  rows : List (GoBytes × GoBytes)
  cacheClosed : Bool
  dbClosed : Bool

/-- onCacheEvict (percache.go:138-149): `pc.mu.Lock()` then deferred
Unlock, unconditionally — the source has no branch that skips the mutex;
the returned Bool records that the mutex was acquired. Then delete the
"/"-prefixed row of the evicted value (ristretto holds the marshalled ref
bytes as the value, so the byte-slice type check at percache.go:141-144
passes). -/
def onCacheEvict (st : PCRun) (value : GoBytes) : Bool × PCRun :=
  (true, { st with rows := kvDel st.rows (valPre ++ value) })

/-- PerCache.Close (percache.go:126-137): take the mutex for the whole
shutdown, close the ristretto cache, close the badger db (and the wrapped
storage), release the mutex. -/
def perCacheClose (st : PCRun) : PCRun :=
  { st with cacheClosed := true, dbClosed := true }

/-! ## Trace storage decorator (part_003, package trace) -/

/-- A sized ref: marshalled ref bytes and size. -/
abbrev SzRef := GoBytes × Nat

/-- A Go channel observed as the items sent into it and whether it has
been closed. -/
structure GoChan where
  sent : List SzRef
  closed : Bool

/-- A wrapped storage's EnumerateBlobs, per the blobserver contract that
the repository's own implementations follow (blobserver/limited's
forwarder closes its output channel, limited.go:117, as does the perkeep
interface): send the refs into the channel it was given, close that
channel, return the error. `refs` and `err` abstract what the wrapped
storage produces. -/
def enumUnderlying (refs : List SzRef) (err : Option String) (dest : GoChan) :
    GoChan × Option String :=
  (⟨dest.sent ++ refs, true⟩, err)

/-- trace.Storage.EnumerateBlobs with OnEnumerate set (part_003:75-91):
an internal channel ch is created and handed to the wrapped storage; a
goroutine ranges over ch forwarding every item into dest (recording it
for the hook) and, when the range ends — which happens when the wrapped
storage closes ch — runs its deferred `close(ch)` on the already-closed
ch. dest itself is never closed by this method. Sequentialised at the
forwarding goroutine's most favourable schedule (it drains fully before
OnEnumerate reads the recorded list). Returns ((dest after the call, the
returned error), what the OnEnumerate hook observes, and whether the
deferred close re-closed an already-closed channel — in Go a panic). -/
def traceEnumerateHooked (refs : List SzRef) (err : Option String) (dest : GoChan) :
    (GoChan × Option String) × (List SzRef × Option String) × Bool :=
  let run := enumUnderlying refs err ⟨[], false⟩
  ((⟨dest.sent ++ run.1.sent, dest.closed⟩, run.2), (run.1.sent, run.2), run.1.closed)

/-- trace.Storage.Fetch (part_003:39-45): return exactly the wrapped
storage's (reader, size, error); the OnFetch hook only observes the
SizedRef and the error. -/
def traceFetch (under : Option GoBytes × Nat × Option String) (br : GoBytes) :
    (Option GoBytes × Nat × Option String) × (List SzRef × Option String) :=
  (under, ([(br, under.2.1)], under.2.2))

/-! ## Safe base filename (part_000:480-514)

`safeBaseFn` takes a client-supplied filename, keeps only the part after
the last path separator, repeatedly query-unescapes it while that keeps
shrinking (re-stripping separators the unescape may reveal), and, when
the result is longer than 255 bytes, truncates it around the extension:
`filename[:255-1-len(hshS)-len(ext)] + "-" + ext`, where `hshS` is the
28-character base64 sha1 of the name (computed and then not used) and
`ext` the suffix from the last '.'. A Go slice with a negative bound
panics at run time; that branch is modelled as `none`. -/

/-- A hex digit of either case (net/url's unhex). -/
def unhexAny (c : Char) : Option Nat :=
  if '0' ≤ c ∧ c ≤ '9' then some (c.toNat - 48)
  else if 'a' ≤ c ∧ c ≤ 'f' then some (c.toNat - 87)
  else if 'A' ≤ c ∧ c ≤ 'F' then some (c.toNat - 55)
  else none

/-- url.QueryUnescape: a percent sign followed by two hex digits becomes
that byte, '+' becomes a space, a malformed escape is an error. -/
def queryUnescape : List Char → Option (List Char)
| [] => some []
| '%' :: c1 :: c2 :: rest =>
  match unhexAny c1, unhexAny c2, queryUnescape rest with
  | some h1, some h2, some out => some (Char.ofNat (16 * h1 + h2) :: out)
  | _, _, _ => none
| ['%'] => none
| ['%', _] => none
| '+' :: rest => (queryUnescape rest).map (fun out => ' ' :: out)
| c :: rest => (queryUnescape rest).map (fun out => c :: out)

/-- The suffix after the last '/' or '\' (strings.LastIndexAny plus the
`[i+1:]` slice; the whole string when no separator occurs). -/
def stripSep (s : List Char) : List Char :=
  (s.reverse.takeWhile (fun c => decide (c ≠ '/' ∧ c ≠ '\\'))).reverse

/-- The unescape loop of safeBaseFn (part_000:485-496), structurally
recursive on a fuel that the length bounds (the loop recurses only when
the name strictly shrank, so `s.length` steps always suffice and the
fuel never runs out early). While a '%' is present: QueryUnescape; stop
on a decode error (keeping the current name) and stop after an unescape
that did not shrink the name (keeping the unescaped name). -/
def unescapeLoopF : Nat → List Char → List Char
| 0, s => s
| fuel + 1, s =>
  if '%' ∈ s then
    match queryUnescape s with
    | none => s
    | some t => if s.length ≤ t.length then t else unescapeLoopF fuel t
  else s

/-- The unescape loop of safeBaseFn (part_000:485-496). -/
def unescapeLoop (s : List Char) : List Char := unescapeLoopF s.length s

/-- The extension: the suffix from the last '.' (empty when no dot). -/
def extOf (s : List Char) : List Char :=
  if '.' ∈ s then '.' :: (s.reverse.takeWhile (fun c => decide (c ≠ '.'))).reverse else []

/-- safeBaseFn (part_000:480-514). `none` models the run-time panic of
the negative slice bound `255-1-28-len(ext)` in the truncation branch. -/
def safeBaseFn (s : List Char) : Option (List Char) :=
  let f1 := stripSep s
  let f2 := unescapeLoop f1
  let f3 := stripSep f2
  if 255 < f3.length then
    let ext := extOf f3
    if 226 < ext.length then none
    else some (f3.take (226 - ext.length) ++ '-' :: ext)
  else some f3

/-! ## Download-path response writer (part_000:546-593)

`respWriter` wraps the `http.ResponseWriter` of a GET: while the MIME
type is unknown ("" or application/octet-stream) and the header is
uncommitted, `Write` buffers; once at least 1 KiB has accumulated it
sniffs the buffer (`MatchMime`, which hands the bytes to the magic
table), writes the detected type back to the MimeCache under the short
key (when both are non-empty), installs the Content-Type header (when a
type was detected), commits status 200 and flushes the buffer; later
writes pass straight through. `Close` flushes a residual buffer without
any of that. The MimeCache's two tiers (mime.go:41-96) are write-through
and read in order, viewed here as one map; Set ignores empty types
(mime.go:87). -/

/-- The MimeCache viewed as one write-through map. -/
abbrev MimeCache := List (String × String)

/-- MimeCache.Get: the stored type, or empty when absent. -/
def mcGet (mc : MimeCache) (key : String) : String := (alookup mc key).getD ""

/-- MimeCache.Set: ignore empty types, else store write-through. -/
def mcSet (mc : MimeCache) (key mime : String) : MimeCache :=
  if mime = "" then mc else (key, mime) :: mc

/-- The underlying http.ResponseWriter: headers added so far, committed
status, body bytes. A Write with no prior WriteHeader commits status 200
implicitly (net/http's behaviour; its independent fallback sniffing is
outside this repository's code). -/
structure HttpOut where
  headers : List (String × String)
  status : Option Nat
  body : GoBytes

/-- Header().Add: append the pair. -/
def addHeader (out : HttpOut) (k v : String) : HttpOut :=
  { out with headers := out.headers ++ [(k, v)] }

/-- WriteHeader: commit the status once; later calls are ignored. -/
def writeHeader (out : HttpOut) (code : Nat) : HttpOut :=
  { out with status := some (out.status.getD code) }

/-- ResponseWriter.Write: append to the body, committing 200 if needed. -/
def writeOut (out : HttpOut) (p : GoBytes) : HttpOut :=
  { out with status := some (out.status.getD 200), body := out.body ++ p }

/-- The respWriter struct (part_000:546-551). -/
structure RespWriter where
  name : String
  okMime : String
  buf : GoBytes
  headerWritten : Bool

/-- newRespWriter (part_000:553-561): with a short key at hand and no
usable MIME type, consult the MimeCache. -/
def newRespWriter (mc : MimeCache) (name okMime : String) : RespWriter :=
  if name ≠ "" ∧ (okMime = "" ∨ okMime = "application/octet-stream") then
    if mcGet mc name ≠ "" then ⟨name, mcGet mc name, [], false⟩
    else ⟨name, okMime, [], false⟩
  else ⟨name, okMime, [], false⟩

/-- One step of the response-writing state: the MimeCache, the underlying
writer and the respWriter. -/
structure RWState where
  mc : MimeCache
  out : HttpOut
  w : RespWriter

/-- respWriter.Write (part_000:563-586). -/
def respWrite (sniff : GoBytes → String) (st : RWState) (p : GoBytes) : RWState :=
  if st.w.headerWritten then ⟨st.mc, writeOut st.out p, st.w⟩
  else if st.w.okMime = "" ∨ st.w.okMime = "application/octet-stream" then
    let buf := st.w.buf ++ p
    if buf.length < 1024 then ⟨st.mc, st.out, { st.w with buf := buf }⟩
    else
      let m := sniff buf
      let mc1 := if st.w.name ≠ "" ∧ m ≠ "" then mcSet st.mc st.w.name m else st.mc
      let out1 := if m ≠ "" then addHeader st.out "Content-Type" m else st.out
      ⟨mc1, writeOut (writeHeader out1 200) buf,
        { st.w with okMime := m, buf := [], headerWritten := true }⟩
  else
    ⟨st.mc, writeOut (writeHeader (addHeader st.out "Content-Type" st.w.okMime) 200) p,
      { st.w with headerWritten := true }⟩

/-- A sequence of Write calls. -/
def runWrites (sniff : GoBytes → String) : RWState → List GoBytes → RWState
| st, [] => st
| st, p :: ps => runWrites sniff (respWrite sniff st p) ps

/-- respWriter.Close (part_000:588-593): flush a residual buffer straight
to the underlying writer (no header or cache logic on this path). -/
def respClose (st : RWState) : RWState :=
  if st.w.buf = [] then st else ⟨st.mc, writeOut st.out st.w.buf, st.w⟩

/-- The buffer contents at the moment the 1 KiB threshold is reached:
accumulate chunks while the running buffer stays under 1024 bytes;
`none` when the whole body stays short of the threshold. -/
def sniffAccum (acc : GoBytes) : List GoBytes → Option GoBytes
| [] => none
| p :: ps =>
  if (acc ++ p).length < 1024 then sniffAccum (acc ++ p) ps else some (acc ++ p)

/-- Sniffer used by the response-writer witness: reports text/plain once
it sees a full 1 KiB, nothing on less. -/
def sniffW : GoBytes → String :=
  fun bs => if 1024 ≤ bs.length then "text/plain" else ""

/-- The 1 KiB body of the response-writer witness. -/
def preW : GoBytes := List.replicate 1024 97

/-- The sha1 ref of spec scenario S1, digest
f6c7ce14e91c5013368a0a3c3c24bd696778d823, used as the codec witness. -/
def wref : BlobRef :=
  ⟨"sha1".toList,
    [0xf6, 0xc7, 0xce, 0x14, 0xe9, 0x1c, 0x50, 0x13, 0x36, 0x8a,
     0x0a, 0x3c, 0x3c, 0x24, 0xbd, 0x69, 0x67, 0x78, 0xd8, 0x23]⟩

/-- Concrete attempt schedule used by the retry-transport witness:
a connection error, then a 503, then a 200. -/
def rtW : Nat → Except String Nat :=
  fun i => if i = 0 then Except.error "connection refused"
    else if i = 1 then Except.ok 503 else Except.ok 200

/-! ## Theorems -/

/-- Auxiliary characterisation of the retry loop: starting at attempt `i`
with `fuel` more `Next`s allowed, the loop makes between 1 and `fuel + 1`
further attempts, returns the outcome of its last attempt, retries only
past non-OK outcomes, and stops on an OK outcome or on exhaustion. -/
theorem roundTripAux_spec (outcomes : Nat → Except String Nat) :
    ∀ (fuel i : Nat),
    i + 1 ≤ (roundTripAux outcomes i fuel).1 ∧
    (roundTripAux outcomes i fuel).1 ≤ i + 1 + fuel ∧
    (roundTripAux outcomes i fuel).2 = outcomes ((roundTripAux outcomes i fuel).1 - 1) ∧
    (∀ j, i ≤ j → j + 1 < (roundTripAux outcomes i fuel).1 → respOK (outcomes j) = false) ∧
    (respOK (outcomes ((roundTripAux outcomes i fuel).1 - 1)) = true ∨
      (roundTripAux outcomes i fuel).1 = i + 1 + fuel) := by
  intro fuel
  induction fuel with
  | zero =>
    intro i
    refine ⟨Nat.le_refl _, Nat.le_refl _, rfl, ?_, Or.inr rfl⟩
    intro j hij hj
    have he : (roundTripAux outcomes i 0).1 = i + 1 := rfl
    rw [he] at hj
    omega
  | succ n ih =>
    intro i
    by_cases h : respOK (outcomes i) = true
    · have he1 : (roundTripAux outcomes i (n + 1)).1 = i + 1 := by
        simp [roundTripAux, h]
      have he2 : (roundTripAux outcomes i (n + 1)).2 = outcomes i := by
        simp [roundTripAux, h]
      refine ⟨by omega, by omega, ?_, ?_, ?_⟩
      · rw [he1, he2]; congr 1
      · intro j hij hj; rw [he1] at hj; omega
      · left; rw [he1]; exact h
    · have hfalse : respOK (outcomes i) = false := by
        cases hr : respOK (outcomes i) with
        | true => exact absurd hr h
        | false => rfl
      have step : roundTripAux outcomes i (n + 1) = roundTripAux outcomes (i + 1) n := by
        simp [roundTripAux, hfalse]
      obtain ⟨h1, h2, h3, h4, h5⟩ := ih (i + 1)
      refine ⟨?_, ?_, ?_, ?_, ?_⟩
      · rw [step]; omega
      · rw [step]; omega
      · rw [step]; exact h3
      · rw [step]
        intro j hij hj
        rcases Nat.lt_or_ge j (i + 1) with hlt | hge
        · have : j = i := by omega
          rw [this]; exact hfalse
        · exact h4 j hge hj
      · rw [step]
        rcases h5 with h5 | h5
        · exact Or.inl h5
        · right; omega

/-- C4. The retry transport, for a request with a replayable body, retries
exactly when the wrapped round-trip returned an error or a status code of
500 or more (up to the strategy's attempt limit), returns the outcome of
its final attempt, and returns a non-error sub-500 response immediately,
with no retry at all: the number of attempts `n` satisfies 1 ≤ n ≤
maxCount, every attempt before the last was an error or a 5xx, the loop
stopped either on a success or by exhausting the attempt limit, and a
first-attempt success means exactly one attempt. -/
theorem retryTransport_policy (outcomes : Nat → Except String Nat) (maxCount : Nat)
    (hpos : 0 < maxCount) :
    1 ≤ (retryRoundTrip outcomes maxCount).1 ∧
    (retryRoundTrip outcomes maxCount).1 ≤ maxCount ∧
    (retryRoundTrip outcomes maxCount).2 =
      outcomes ((retryRoundTrip outcomes maxCount).1 - 1) ∧
    (∀ j, j + 1 < (retryRoundTrip outcomes maxCount).1 → respOK (outcomes j) = false) ∧
    (respOK (outcomes ((retryRoundTrip outcomes maxCount).1 - 1)) = true ∨
      (retryRoundTrip outcomes maxCount).1 = maxCount) ∧
    (respOK (outcomes 0) = true → (retryRoundTrip outcomes maxCount).1 = 1) := by
  unfold retryRoundTrip
  obtain ⟨h1, h2, h3, h4, h5⟩ := roundTripAux_spec outcomes (maxCount - 1) 0
  refine ⟨h1, by omega, h3, ?_, ?_, ?_⟩
  · intro j hj; exact h4 j (Nat.zero_le j) hj
  · rcases h5 with h5 | h5
    · exact Or.inl h5
    · right; omega
  · intro h0
    by_contra hne
    have hf := h4 0 (Nat.le_refl 0) (by omega)
    rw [h0] at hf
    simp at hf

/-- Witness for C4: the concrete schedule error, 503, 200 under a
three-attempt limit. -/
theorem retryTransport_policy_witness :
    0 < 3 ∧
    (1 ≤ (retryRoundTrip rtW 3).1 ∧
    (retryRoundTrip rtW 3).1 ≤ 3 ∧
    (retryRoundTrip rtW 3).2 = rtW ((retryRoundTrip rtW 3).1 - 1) ∧
    (∀ j, j + 1 < (retryRoundTrip rtW 3).1 → respOK (rtW j) = false) ∧
    (respOK (rtW ((retryRoundTrip rtW 3).1 - 1)) = true ∨ (retryRoundTrip rtW 3).1 = 3) ∧
    (respOK (rtW 0) = true → (retryRoundTrip rtW 3).1 = 1)) :=
  ⟨by decide, retryTransport_policy rtW 3 (by decide)⟩

/-- C6. `MIMETypeFromReader` consumes at most the first 1024 bytes of the
underlying reader, hands the sniffer exactly the (at most 1 KiB) prefix,
and the reader it returns yields exactly the original stream: the consumed
prefix first, then the remainder, with a read error of the original stream
surfacing only after the whole prefix has been replayed. -/
theorem mimeTypeFromReader_spec (sniff : GoBytes → String) (r : ByteStream) :
    (mimeTypeFromReader sniff r).2.1 ≤ 1024 ∧
    (mimeTypeFromReader sniff r).2.2.data = r.data ∧
    (mimeTypeFromReader sniff r).2.2.terr = r.terr ∧
    (mimeTypeFromReader sniff r).1 = sniff (r.data.take 1024) := by
  simp only [mimeTypeFromReader]
  by_cases h : r.data.length < 1024 ∧ r.terr.isSome
  · rw [if_pos h]
    exact ⟨Nat.le_of_lt h.1, List.take_of_length_le (Nat.le_of_lt h.1), rfl, rfl⟩
  · rw [if_neg h]
    exact ⟨Nat.min_le_left _ _, List.take_append_drop _ _, rfl, rfl⟩

/-! ### BlobRef codec lemmas and the round-trip theorem -/

theorem unhexL_hexDigitChar : ∀ n < 16, unhexL (hexDigitChar n) = some n := by decide

theorem b64Val_b64Char : ∀ n < 64, b64Val (b64Char n) = some n := by decide

theorem b64Char_ne_pad : ∀ n < 64, b64Char n ≠ '=' := by decide

theorem hexEncode_length (bs : List Nat) : (hexEncode bs).length = 2 * bs.length := by
  induction bs with
  | nil => rfl
  | cons b bs ih => simp [hexEncode, ih]; omega

theorem hexDecode_hexEncode :
    ∀ (bs : List Nat), (∀ b ∈ bs, b < 256) → hexDecode (hexEncode bs) = some bs := by
  intro bs
  induction bs with
  | nil => intro; rfl
  | cons b bs ih =>
    intro h
    have hb : b < 256 := h b (by simp)
    have h1 : unhexL (hexDigitChar (b / 16)) = some (b / 16) :=
      unhexL_hexDigitChar _ (by omega)
    have h2 : unhexL (hexDigitChar (b % 16)) = some (b % 16) :=
      unhexL_hexDigitChar _ (by omega)
    have h3 := ih (fun x hx => h x (by simp [hx]))
    simp only [hexEncode, hexDecode, h1, h2, h3, Option.some.injEq, List.cons.injEq]
    exact ⟨by omega, trivial⟩

theorem b64Encode_length :
    ∀ (bs : List Nat), (b64Encode bs).length = (bs.length + 2) / 3 * 4
| [] => by simp [b64Encode]
| [_] => by simp [b64Encode]
| [_, _] => by simp [b64Encode]
| b1 :: b2 :: b3 :: rest => by
  have ih := b64Encode_length rest
  simp only [b64Encode, List.length_cons, ih]
  omega

theorem b64Decode_b64Encode :
    ∀ (bs : List Nat), (∀ b ∈ bs, b < 256) → b64Decode (b64Encode bs) = some bs
| [], _ => rfl
| [b1], h => by
  have hb : b1 < 256 := h b1 (by simp)
  have h1 : b64Val (b64Char (b1 / 4)) = some (b1 / 4) := b64Val_b64Char _ (by omega)
  have h2 : b64Val (b64Char (b1 % 4 * 16)) = some (b1 % 4 * 16) := b64Val_b64Char _ (by omega)
  simp only [b64Encode, b64Decode, h1, h2, if_pos rfl, and_self, ite_true,
    Option.some.injEq, List.cons.injEq, and_true]
  omega
| [b1, b2], h => by
  have hb1 : b1 < 256 := h b1 (by simp)
  have hb2 : b2 < 256 := h b2 (by simp)
  have h1 : b64Val (b64Char (b1 / 4)) = some (b1 / 4) := b64Val_b64Char _ (by omega)
  have h2 : b64Val (b64Char (b1 % 4 * 16 + b2 / 16)) = some (b1 % 4 * 16 + b2 / 16) :=
    b64Val_b64Char _ (by omega)
  have h3 : b64Val (b64Char (b2 % 16 * 4)) = some (b2 % 16 * 4) := b64Val_b64Char _ (by omega)
  have hne : b64Char (b2 % 16 * 4) ≠ '=' := b64Char_ne_pad _ (by omega)
  simp only [b64Encode, b64Decode, h1, h2, h3, if_neg hne, if_pos rfl, ite_true,
    Option.some.injEq, List.cons.injEq]
  exact ⟨by omega, by omega, trivial⟩
| b1 :: b2 :: b3 :: rest, h => by
  have hb1 : b1 < 256 := h b1 (by simp)
  have hb2 : b2 < 256 := h b2 (by simp)
  have hb3 : b3 < 256 := h b3 (by simp)
  have ih := b64Decode_b64Encode rest (fun x hx => h x (by simp [hx]))
  have h1 : b64Val (b64Char (b1 / 4)) = some (b1 / 4) := b64Val_b64Char _ (by omega)
  have h2 : b64Val (b64Char (b1 % 4 * 16 + b2 / 16)) = some (b1 % 4 * 16 + b2 / 16) :=
    b64Val_b64Char _ (by omega)
  have h3 : b64Val (b64Char (b2 % 16 * 4 + b3 / 64)) = some (b2 % 16 * 4 + b3 / 64) :=
    b64Val_b64Char _ (by omega)
  have h4 : b64Val (b64Char (b3 % 64)) = some (b3 % 64) := b64Val_b64Char _ (by omega)
  have hne3 : b64Char (b2 % 16 * 4 + b3 / 64) ≠ '=' := b64Char_ne_pad _ (by omega)
  have hne4 : b64Char (b3 % 64) ≠ '=' := b64Char_ne_pad _ (by omega)
  simp only [b64Encode, b64Decode, h1, h2, h3, h4, if_neg hne3, if_neg hne4, ih,
    Option.some.injEq, List.cons.injEq]
  exact ⟨by omega, by omega, by omega, trivial⟩

theorem idxOf_dash (name : List Char) (rest : List Char) (hd : '-' ∉ name) :
    idxOf '-' (name ++ '-' :: rest) = some name.length := by
  induction name with
  | nil => simp [idxOf]
  | cons c cs ih =>
    have hc : c ≠ '-' := fun he => hd (by simp [he])
    have hcs : '-' ∉ cs := fun hm => hd (by simp [hm])
    simp [idxOf, hc, ih hcs]

theorem take_append_cons (xs : List Char) (c : Char) (ys : List Char) :
    (xs ++ c :: ys).take xs.length = xs := by
  induction xs with
  | nil => rfl
  | cons x xs ih => simp [ih]

theorem drop_append_cons (xs : List Char) (c : Char) (ys : List Char) :
    (xs ++ c :: ys).drop (xs.length + 1) = ys := by
  induction xs with
  | nil => rfl
  | cons x xs ih => simp

theorem blobParse_refString (br : BlobRef) (hsz : hashSize br.hashName = some br.digest.length)
    (hbytes : ∀ b ∈ br.digest, b < 256) (hd : '-' ∉ br.hashName) :
    blobParse (refString br) = some br := by
  have hidx := idxOf_dash br.hashName (hexEncode br.digest) hd
  have htake := take_append_cons br.hashName '-' (hexEncode br.digest)
  have hdrop := drop_append_cons br.hashName '-' (hexEncode br.digest)
  simp only [blobParse, refString, hidx, htake, hdrop, hsz, hexEncode_length,
    hexDecode_hexEncode br.digest hbytes]
  simp

/-- C2. Parsing the canonical text form of a valid BlobRef returns the ref,
and decoding the short base64 form of the ref returns the ref. -/
theorem blobref_roundtrip (br : BlobRef) (h : GoodRef br) :
    blobParse (refString br) = some br ∧ Base64ToRef (RefToBase64 br) = some br := by
  obtain ⟨hsz, hbytes⟩ := h
  have hname : br.hashName = "sha1".toList ∧ br.digest.length = 20 ∨
      br.hashName = "sha224".toList ∧ br.digest.length = 28 := by
    by_cases h1 : br.hashName = "sha1".toList
    · rw [hashSize, if_pos h1] at hsz
      exact Or.inl ⟨h1, by injection hsz with h; omega⟩
    · by_cases h2 : br.hashName = "sha224".toList
      · rw [hashSize, if_neg h1, if_pos h2] at hsz
        exact Or.inr ⟨h2, by injection hsz with h; omega⟩
      · rw [hashSize, if_neg h1, if_neg h2] at hsz
        simp at hsz
  have hd : '-' ∉ br.hashName := by
    rcases hname with ⟨h1, _⟩ | ⟨h1, _⟩ <;> rw [h1] <;> decide
  refine ⟨blobParse_refString br hsz hbytes hd, ?_⟩
  have hvalid : br.validB = true := by
    simp only [BlobRef.validB, hsz]
    simp
  rw [RefToBase64, if_pos hvalid]
  have hnl : br.hashName.length ≤ 7 := by
    rcases hname with ⟨h1, _⟩ | ⟨h1, _⟩ <;> rw [h1] <;> decide
  have hdl : br.digest.length ≤ 28 := by
    rcases hname with ⟨_, h2⟩ | ⟨_, h2⟩ <;> omega
  have hlen : (br.hashName ++ '-' :: b64Encode br.digest).length ≤ 128 := by
    rw [List.length_append, List.length_cons, b64Encode_length]
    omega
  have hidx := idxOf_dash br.hashName (b64Encode br.digest) hd
  have htk := take_append_cons br.hashName '-' (b64Encode br.digest)
  have hdr2 := drop_append_cons br.hashName '-' (b64Encode br.digest)
  have hdec := b64Decode_b64Encode br.digest hbytes
  have hnot : ¬ 64 < br.digest.length := by omega
  have hmap : br.hashName.map asciiLower = br.hashName := by
    rcases hname with ⟨h1, _⟩ | ⟨h1, _⟩ <;> rw [h1] <;> decide
  simp only [Base64ToRef, List.take_of_length_le hlen, hidx, hdr2, hdec, htk, hmap,
    if_neg hnot]
  exact blobParse_refString br hsz hbytes hd

/-- Witness for C2 at the concrete sha1 ref of spec scenario S1 (canonical
form sha1-f6c7ce14e91c5013368a0a3c3c24bd696778d823). -/
theorem blobref_roundtrip_witness :
    GoodRef wref ∧
    (blobParse (refString wref) = some wref ∧ Base64ToRef (RefToBase64 wref) = some wref) :=
  ⟨by decide, blobref_roundtrip wref (by decide)⟩

/-! ### PerCache lemmas and the put/get theorems -/

theorem splitChunksF_flatten :
    ∀ (fuel : Nat) (data : GoBytes), data.length ≤ fuel →
      (splitChunksF fuel data).flatten = data := by
  intro fuel
  induction fuel with
  | zero =>
    intro data hlen
    have hdata : data = [] := List.eq_nil_of_length_eq_zero (Nat.le_zero.mp hlen)
    subst hdata
    rfl
  | succ n ih =>
    intro data hlen
    rw [splitChunksF]
    by_cases h : data = []
    · rw [if_pos h, h]
      rfl
    · rw [if_neg h]
      have hne : data.length ≠ 0 := fun h0 => h (List.eq_nil_of_length_eq_zero h0)
      have hd : (data.drop chunkSpan).length ≤ n := by
        simp only [List.length_drop, chunkSpan]
        omega
      rw [List.flatten_cons, ih _ hd, List.take_append_drop]

theorem splitChunks_flatten (data : GoBytes) : (splitChunks data).flatten = data :=
  splitChunksF_flatten data.length data (Nat.le_refl _)

theorem receiveChunks_none : ∀ (chunks : List GoBytes) (blobs : List Blob) (i : Nat),
    receiveChunks blobs chunks i none = ((chunks.map Blob.data).reverse ++ blobs, true)
| [], blobs, i => by simp [receiveChunks]
| c :: cs, blobs, i => by
  rw [receiveChunks]
  simp only [if_neg (by simp : ¬ (none : Option Nat) = some i)]
  rw [receiveChunks_none cs (Blob.data c :: blobs) (i + 1)]
  simp

theorem receiveChunks_mem : ∀ (chunks : List GoBytes) (blobs : List Blob) (i : Nat)
    (failAt : Option Nat), (receiveChunks blobs chunks i failAt).2 = true →
    (∀ c ∈ chunks, Blob.data c ∈ (receiveChunks blobs chunks i failAt).1) ∧
    (∀ x ∈ blobs, x ∈ (receiveChunks blobs chunks i failAt).1)
| [], blobs, i, failAt => by
  intro _
  exact ⟨by simp, by simp [receiveChunks]⟩
| c :: cs, blobs, i, failAt => by
  intro hok
  by_cases hf : failAt = some i
  · rw [receiveChunks, if_pos hf] at hok
    simp at hok
  · rw [receiveChunks, if_neg hf] at hok ⊢
    obtain ⟨h1, h2⟩ := receiveChunks_mem cs (Blob.data c :: blobs) (i + 1) failAt hok
    refine ⟨?_, ?_⟩
    · intro x hx
      rcases List.mem_cons.mp hx with rfl | hx
      · exact h2 _ (by simp)
      · exact h1 x hx
    · intro x hx
      exact h2 x (by simp [hx])

theorem readParts_flatten (blobs : List Blob) : ∀ (chunks : List GoBytes),
    (∀ c ∈ chunks, Blob.data c ∈ blobs) → readParts blobs chunks = some chunks.flatten
| [], _ => rfl
| c :: cs, h => by
  rw [readParts, if_pos (h c (by simp)),
    readParts_flatten blobs cs (fun x hx => h x (by simp [hx]))]
  rfl

theorem receiveChunks_ok : ∀ (chunks : List GoBytes) (blobs : List Blob) (i : Nat)
    (failAt : Option Nat), (receiveChunks blobs chunks i failAt).2 = true →
    (receiveChunks blobs chunks i failAt).1 = (chunks.map Blob.data).reverse ++ blobs
| [], blobs, i, failAt => by
  intro _
  simp [receiveChunks]
| c :: cs, blobs, i, failAt => by
  intro hok
  by_cases hf : failAt = some i
  · rw [receiveChunks, if_pos hf] at hok
    simp at hok
  · rw [receiveChunks, if_neg hf] at hok ⊢
    rw [receiveChunks_ok cs (Blob.data c :: blobs) (i + 1) failAt hok]
    simp

/-- C1. PerCache round trip: for every prior state, node id, byte
sequence and injected fault, whenever `Put` returns without error a
following `Get` of the same node id returns exactly the bytes that were
put; and with no store fault injected `Put` does return without error. -/
theorem percache_put_get_roundtrip (st : PCState) (nodeID data : GoBytes) (failAt : Option Nat) :
    ((PerCache.Put st nodeID data failAt).2 = true →
      PerCache.Get (PerCache.Put st nodeID data failAt).1 nodeID = some data) ∧
    (PerCache.Put st nodeID data none).2 = true := by
  constructor
  case right =>
    have hrc := receiveChunks_none (splitChunks data) st.blobs 0
    rw [PerCache.Put, writeFileFromReader]
    simp only [hrc]
  intro hok
  rcases hrc : receiveChunks st.blobs (splitChunks data) 0 failAt with ⟨bl, ok⟩
  cases ok with
  | false =>
    have hfail : (PerCache.Put st nodeID data failAt).2 = false := by
      rw [PerCache.Put, writeFileFromReader]
      simp only [hrc]
    rw [hfail] at hok
    cases hok
  | true =>
    have hbl : bl = ((splitChunks data).map Blob.data).reverse ++ st.blobs := by
      have hh := receiveChunks_ok (splitChunks data) st.blobs 0 failAt (by rw [hrc])
      rw [hrc] at hh
      exact hh
    subst hbl
    have hput : PerCache.Put st nodeID data failAt =
        (⟨(nodeID, (nodeID, splitChunks data)) :: st.names,
          Blob.file nodeID (splitChunks data) ::
            (((splitChunks data).map Blob.data).reverse ++ st.blobs)⟩, true) := by
      rw [PerCache.Put, writeFileFromReader]
      simp only [hrc]
    rw [hput]
    have hmem : ∀ c ∈ splitChunks data,
        Blob.data c ∈ Blob.file nodeID (splitChunks data) ::
          (((splitChunks data).map Blob.data).reverse ++ st.blobs) := by
      intro c hc
      have hrev : Blob.data c ∈ ((splitChunks data).map Blob.data).reverse := by
        simp only [List.mem_reverse, List.mem_map]
        exact ⟨c, hc, rfl⟩
      simp [hrev]
    have hrp := readParts_flatten _ _ hmem
    simp [PerCache.Get, alookup, hrp, splitChunks_flatten]

/-- C3. Put is atomic with respect to the name mapping: when the schema
writer fails (a chunk write reports an error), Put reports the error and
the name-mapping rows are exactly what they were, so no "," row was
written; when Put succeeds, the mapping row for `nodeID` is present and
every chunk of the stream is present in the content rows, the mapping
write happening only in the branch where every chunk write succeeded. -/
theorem percache_put_atomic (st : PCState) (nodeID data : GoBytes) (failAt : Option Nat) :
    ((PerCache.Put st nodeID data failAt).2 = false →
      (PerCache.Put st nodeID data failAt).1.names = st.names) ∧
    ((PerCache.Put st nodeID data failAt).2 = true →
      alookup (PerCache.Put st nodeID data failAt).1.names nodeID =
        some (nodeID, splitChunks data) ∧
      ∀ c ∈ splitChunks data, Blob.data c ∈ (PerCache.Put st nodeID data failAt).1.blobs) := by
  rcases hrc : receiveChunks st.blobs (splitChunks data) 0 failAt with ⟨bl, ok⟩
  cases ok with
  | false =>
    have hput : PerCache.Put st nodeID data failAt = ({ st with blobs := bl }, false) := by
      rw [PerCache.Put, writeFileFromReader]
      simp only [hrc]
    rw [hput]
    exact ⟨fun _ => rfl, fun h => by simp at h⟩
  | true =>
    have hput : PerCache.Put st nodeID data failAt =
        (⟨(nodeID, (nodeID, splitChunks data)) :: st.names,
          Blob.file nodeID (splitChunks data) :: bl⟩, true) := by
      rw [PerCache.Put, writeFileFromReader]
      simp only [hrc]
    obtain ⟨h1, _⟩ := receiveChunks_mem (splitChunks data) st.blobs 0 failAt (by rw [hrc])
    rw [hrc] at h1
    rw [hput]
    refine ⟨fun h => by simp at h, fun _ => ⟨by simp [alookup], ?_⟩⟩
    intro c hc
    exact List.mem_cons_of_mem _ (h1 c hc)

/-! ### PerCache shutdown/eviction (C8) -/

/-- C8 counterexample: with a shutdown in progress (the mutex held by
Close and the ristretto cache already closing), a concurrent eviction
callback still acquires the PerCache mutex — the claimed mutex-skipping
`closing` mark does not exist in the code. -/
theorem onCacheEvict_no_skip_cex :
    (onCacheEvict ⟨true, [(valPre ++ [5], [7])], true, false⟩ [5]).1 = true := rfl

/-- C8 (amended). Close shuts the cache and the store down under the
mutex, and every eviction callback — before, during or after Close —
acquires the PerCache mutex (the source has no closing mark and no
branch that skips the lock) and still deletes the "/"-prefixed row of
the evicted value from the persistent store. -/
theorem onCacheEvict_locks_and_deletes (st : PCRun) (value : GoBytes) :
    (onCacheEvict st value).1 = true ∧
    (onCacheEvict st value).2.rows = kvDel st.rows (valPre ++ value) ∧
    perCacheClose st = { st with cacheClosed := true, dbClosed := true } :=
  ⟨rfl, rfl, rfl⟩

/-! ### Trace storage decorator (C9) -/

/-- Fetch through the trace decorator is transparent: the wrapped
storage's result is returned unchanged and the hook only observes. -/
theorem traceFetch_transparent (under : Option GoBytes × Nat × Option String) (br : GoBytes) :
    (traceFetch under br).1 = under := rfl

/-- C9. trace.Storage.EnumerateBlobs with OnEnumerate set is not
result-transparent: at the concrete input (one blob, no error from the
wrapped storage) the decorator forwards the blob and passes the error
through, but leaves `dest` unclosed — the wrapped storage, handed the
same channel directly, closes it — and its forwarding goroutine's
deferred close re-closes the already-closed internal channel, which in
Go panics (close of closed channel). -/
theorem trace_enumerate_close_bug :
    (traceEnumerateHooked [([1], 1)] none ⟨[], false⟩).1.1.sent = [([1], 1)] ∧
    (traceEnumerateHooked [([1], 1)] none ⟨[], false⟩).1.2 = none ∧
    (traceEnumerateHooked [([1], 1)] none ⟨[], false⟩).1.1.closed = false ∧
    (enumUnderlying [([1], 1)] none ⟨[], false⟩).1.closed = true ∧
    (traceEnumerateHooked [([1], 1)] none ⟨[], false⟩).2.2 = true :=
  ⟨rfl, rfl, rfl, rfl, rfl⟩

/-! ### Lazy-attribute upload (C5) -/

theorem filterAttrs_eq_nil_iff (skipPre : List Char) (attrs : AttrMap) :
    filterAttrs skipPre attrs = [] ↔ ∀ kv ∈ attrs, goHasPre skipPre kv.1 = true := by
  rw [filterAttrs, List.filter_eq_nil_iff]
  constructor
  · intro h kv hkv
    have := h kv hkv
    simpa using this
  · intro h kv hkv
    simp [h kv hkv]

/-- C5. On the direct upload path with a successful content upload, a
permanode is created (NewPermanode invoked) exactly when the caller's
attributes hold at least one key that does not start with "camli"; when
it is invoked, the attribute map handed to it binds camliContent to the
content ref, a successful creation returns that permanode, and when it
is not invoked no permanode is returned. -/
theorem uploadFileLazyAttr_permanode (newPermanode : AttrMap → Except Unit (List Char))
    (attrs : AttrMap) (content : List Char) :
    ((uploadFileLazyAttr (Except.ok content) newPermanode attrs).permaCall.isSome = true ↔
      ∃ kv ∈ attrs, goHasPre "camli".toList kv.1 = false) ∧
    (∀ m, (uploadFileLazyAttr (Except.ok content) newPermanode attrs).permaCall = some m →
      alookup m "camliContent".toList = some content ∧
      ∀ p, newPermanode m = Except.ok p →
        (uploadFileLazyAttr (Except.ok content) newPermanode attrs).perma = some p) ∧
    ((uploadFileLazyAttr (Except.ok content) newPermanode attrs).permaCall = none →
      (uploadFileLazyAttr (Except.ok content) newPermanode attrs).perma = none) := by
  have hu0 : uploadFileLazyAttr (Except.ok content) newPermanode attrs =
      if filterAttrs "camli".toList attrs = [] then ⟨content, none, false, none⟩
      else
        match newPermanode
            (mapSet (filterAttrs "camli".toList attrs) "camliContent".toList content) with
        | Except.ok p =>
          ⟨content, some p, false,
            some (mapSet (filterAttrs "camli".toList attrs) "camliContent".toList content)⟩
        | Except.error _ =>
          ⟨content, none, false,
            some (mapSet (filterAttrs "camli".toList attrs) "camliContent".toList content)⟩ := rfl
  by_cases hF : filterAttrs "camli".toList attrs = []
  · have hu : uploadFileLazyAttr (Except.ok content) newPermanode attrs =
        ⟨content, none, false, none⟩ := by
      rw [hu0, if_pos hF]
    rw [hu]
    refine ⟨?_, ?_, fun _ => rfl⟩
    · constructor
      · intro h
        simp at h
      · rintro ⟨kv, hkv, hpre⟩
        have := (filterAttrs_eq_nil_iff _ _).mp hF kv hkv
        rw [this] at hpre
        cases hpre
    · intro m hm
      simp at hm
  · cases hnp : newPermanode
        (mapSet (filterAttrs "camli".toList attrs) "camliContent".toList content) with
    | error e =>
      have hu : uploadFileLazyAttr (Except.ok content) newPermanode attrs =
          ⟨content, none, false,
            some (mapSet (filterAttrs "camli".toList attrs) "camliContent".toList content)⟩ := by
        rw [hu0, if_neg hF, hnp]
      rw [hu]
      refine ⟨?_, ?_, ?_⟩
      · simp only [Option.isSome_some, true_iff]
        obtain ⟨kv, hkv⟩ := List.exists_mem_of_ne_nil _ hF
        obtain ⟨hmem, hpred⟩ := List.mem_filter.mp hkv
        exact ⟨kv, hmem, by simpa using hpred⟩
      · intro m hm
        have hm2 : m = mapSet (filterAttrs "camli".toList attrs) "camliContent".toList content := by
          injection hm with h2
          exact h2.symm
        subst hm2
        refine ⟨by simp [mapSet, alookup], ?_⟩
        intro p hp
        rw [hnp] at hp
        cases hp
      · intro hnone
        cases hnone
    | ok p =>
      have hu : uploadFileLazyAttr (Except.ok content) newPermanode attrs =
          ⟨content, some p, false,
            some (mapSet (filterAttrs "camli".toList attrs) "camliContent".toList content)⟩ := by
        rw [hu0, if_neg hF, hnp]
      rw [hu]
      refine ⟨?_, ?_, ?_⟩
      · simp only [Option.isSome_some, true_iff]
        obtain ⟨kv, hkv⟩ := List.exists_mem_of_ne_nil _ hF
        obtain ⟨hmem, hpred⟩ := List.mem_filter.mp hkv
        exact ⟨kv, hmem, by simpa using hpred⟩
      · intro m hm
        have hm2 : m = mapSet (filterAttrs "camli".toList attrs) "camliContent".toList content := by
          injection hm with h2
          exact h2.symm
        subst hm2
        refine ⟨by simp [mapSet, alookup], ?_⟩
        intro q hq
        rw [hnp] at hq
        injection hq with h3
        rw [h3]
      · intro hnone
        cases hnone

/-! ### Safe base filename (C10) -/

theorem takeWhile_pred {p : Char → Bool} :
    ∀ {l : List Char} {c : Char}, c ∈ l.takeWhile p → p c = true ∧ c ∈ l := by
  intro l
  induction l with
  | nil =>
    intro c h
    simp [List.takeWhile_nil] at h
  | cons x xs ih =>
    intro c h
    rw [List.takeWhile_cons] at h
    by_cases hx : p x
    · rw [if_pos hx] at h
      rcases List.mem_cons.mp h with rfl | h2
      · exact ⟨hx, by simp⟩
      · obtain ⟨h3, h4⟩ := ih h2
        exact ⟨h3, by simp [h4]⟩
    · rw [if_neg hx] at h
      simp at h

theorem stripSep_no_sep (s : List Char) : ∀ c ∈ stripSep s, c ≠ '/' ∧ c ≠ '\\' := by
  intro c hc
  rw [stripSep, List.mem_reverse] at hc
  have hp := (takeWhile_pred hc).1
  simpa using hp

theorem extOf_subset (s : List Char) : ∀ c ∈ extOf s, c = '.' ∨ c ∈ s := by
  intro c hc
  rw [extOf] at hc
  by_cases hd : '.' ∈ s
  · rw [if_pos hd] at hc
    rcases List.mem_cons.mp hc with rfl | h2
    · exact Or.inl rfl
    · rw [List.mem_reverse] at h2
      have hm := (takeWhile_pred h2).2
      rw [List.mem_reverse] at hm
      exact Or.inr hm
  · rw [if_neg hd] at hc
    simp at hc

/-- C10 (amended). Whenever safeBaseFn returns — which it fails to do,
with a run-time panic, exactly on a name longer than 255 bytes whose
extension from the last '.' exceeds 226 bytes (see the counterexample) —
the returned name contains no '/' or '\' and is at most 255 characters
long. -/
theorem safeBaseFn_bounded (s r : List Char) (h : safeBaseFn s = some r) :
    (∀ c ∈ r, c ≠ '/' ∧ c ≠ '\\') ∧ r.length ≤ 255 := by
  rw [safeBaseFn] at h
  by_cases hlong : 255 < (stripSep (unescapeLoop (stripSep s))).length
  · rw [if_pos hlong] at h
    by_cases hext : 226 < (extOf (stripSep (unescapeLoop (stripSep s)))).length
    · rw [if_pos hext] at h
      cases h
    · rw [if_neg hext] at h
      have hr : r = (stripSep (unescapeLoop (stripSep s))).take
          (226 - (extOf (stripSep (unescapeLoop (stripSep s)))).length) ++
          '-' :: extOf (stripSep (unescapeLoop (stripSep s))) := by
        injection h with h2
        exact h2.symm
      subst hr
      constructor
      · intro c hc
        rcases List.mem_append.mp hc with h1 | h2
        · exact stripSep_no_sep _ c (List.take_subset _ _ h1)
        · rcases List.mem_cons.mp h2 with rfl | h3
          · exact ⟨by decide, by decide⟩
          · rcases extOf_subset _ c h3 with rfl | h4
            · exact ⟨by decide, by decide⟩
            · exact stripSep_no_sep _ c h4
      · rw [List.length_append, List.length_cons, List.length_take]
        omega
  · rw [if_neg hlong] at h
    have hr : r = stripSep (unescapeLoop (stripSep s)) := by
      injection h with h2
      exact h2.symm
    subst hr
    exact ⟨stripSep_no_sep _, by omega⟩

/-- Witness for C10's amended theorem at the small name ab.t, which
safeBaseFn returns unchanged. -/
theorem safeBaseFn_bounded_witness :
    safeBaseFn "ab.t".toList = some "ab.t".toList ∧
    ((∀ c ∈ "ab.t".toList, c ≠ '/' ∧ c ≠ '\\') ∧ "ab.t".toList.length ≤ 255) :=
  ⟨by decide, safeBaseFn_bounded ("ab.t".toList) ("ab.t".toList) (by decide)⟩

set_option maxRecDepth 20000 in
/-- C10 counterexample: on the 302-character name "a." followed by 300
times 'b', whose extension from the last '.' is 301 characters long,
safeBaseFn slices with the negative bound 255-1-28-301 and panics
(modelled as `none`): the claim's "never panics on any input" is false. -/
theorem safeBaseFn_panics_cex :
    safeBaseFn ('a' :: '.' :: List.replicate 300 'b') = none := by decide

/-! ### Download-path response writer (C7) -/

theorem runWrites_pass (sniff : GoBytes → String) :
    ∀ (ps : List GoBytes) (st : RWState),
    st.w.headerWritten = true → st.out.status.isSome = true →
    (runWrites sniff st ps).mc = st.mc ∧
    (runWrites sniff st ps).w = st.w ∧
    (runWrites sniff st ps).out.headers = st.out.headers ∧
    (runWrites sniff st ps).out.status = st.out.status := by
  intro ps
  induction ps with
  | nil =>
    intro st h1 h2
    exact ⟨rfl, rfl, rfl, rfl⟩
  | cons p ps ih =>
    intro st h1 h2
    rw [runWrites]
    have hw : respWrite sniff st p = ⟨st.mc, writeOut st.out p, st.w⟩ := by
      rw [respWrite, if_pos h1]
    rw [hw]
    obtain ⟨s, hs⟩ := Option.isSome_iff_exists.mp h2
    have hst : (writeOut st.out p).status = st.out.status := by
      rw [writeOut, hs]
      rfl
    obtain ⟨a, b, c, d⟩ := ih ⟨st.mc, writeOut st.out p, st.w⟩ h1 (by rw [hst, hs]; rfl)
    exact ⟨a, b, c, by rw [d]; exact hst⟩

theorem runWrites_cross (sniff : GoBytes → String) (name : String) (hname : name ≠ "") :
    ∀ (chunks : List GoBytes) (acc : GoBytes) (mc : MimeCache) (out : HttpOut) (pre : GoBytes),
    sniffAccum acc chunks = some pre → sniff pre ≠ "" →
    ("Content-Type", sniff pre) ∈
      (runWrites sniff ⟨mc, out, ⟨name, "", acc, false⟩⟩ chunks).out.headers ∧
    mcGet (runWrites sniff ⟨mc, out, ⟨name, "", acc, false⟩⟩ chunks).mc name = sniff pre ∧
    (runWrites sniff ⟨mc, out, ⟨name, "", acc, false⟩⟩ chunks).w.headerWritten = true ∧
    (runWrites sniff ⟨mc, out, ⟨name, "", acc, false⟩⟩ chunks).out.status =
      some (out.status.getD 200) := by
  intro chunks
  induction chunks with
  | nil =>
    intro acc mc out pre hacc
    cases hacc
  | cons p ps ih =>
    intro acc mc out pre hacc hdet
    have hw : respWrite sniff ⟨mc, out, ⟨name, "", acc, false⟩⟩ p =
        if (acc ++ p).length < 1024 then ⟨mc, out, ⟨name, "", acc ++ p, false⟩⟩
        else
          ⟨if name ≠ "" ∧ sniff (acc ++ p) ≠ "" then mcSet mc name (sniff (acc ++ p)) else mc,
            writeOut (writeHeader
              (if sniff (acc ++ p) ≠ "" then addHeader out "Content-Type" (sniff (acc ++ p))
                else out) 200) (acc ++ p),
            ⟨name, sniff (acc ++ p), [], true⟩⟩ := rfl
    rw [runWrites]
    by_cases hlen : (acc ++ p).length < 1024
    · have hs : sniffAccum acc (p :: ps) = sniffAccum (acc ++ p) ps := by
        rw [sniffAccum, if_pos hlen]
      rw [hs] at hacc
      rw [hw, if_pos hlen]
      exact ih (acc ++ p) mc out pre hacc hdet
    · have hpre : pre = acc ++ p := by
        rw [sniffAccum, if_neg hlen] at hacc
        injection hacc with h2
        exact h2.symm
      subst hpre
      rw [hw, if_neg hlen, if_pos (And.intro hname hdet), if_pos hdet]
      obtain ⟨a, b, c, d⟩ := runWrites_pass sniff ps
        ⟨mcSet mc name (sniff (acc ++ p)),
          writeOut (writeHeader (addHeader out "Content-Type" (sniff (acc ++ p))) 200) (acc ++ p),
          ⟨name, sniff (acc ++ p), [], true⟩⟩ rfl rfl
      refine ⟨?_, ?_, ?_, ?_⟩
      · rw [c]
        simp [writeOut, writeHeader, addHeader]
      · rw [a]
        simp [mcGet, mcSet, alookup, if_neg hdet]
      · rw [b]
      · rw [d]
        rfl

/-- C7 (amended). On the download path, when the caller supplied no MIME
type and the MimeCache has no entry for the content's short key, the
response writer buffers the body without committing headers until at
least 1 KiB has accumulated; at that point it hands the buffered prefix
to the sniffer, installs the detected (non-empty) type as the
Content-Type header, writes it into the MimeCache under the short key
and commits the status. A body that ends before 1 KiB is flushed by
Close without any sniffing (see the counterexample). -/
theorem respWriter_sniffs_at_1KiB (sniff : GoBytes → String) (mc : MimeCache) (out : HttpOut)
    (name : String) (chunks : List GoBytes) (pre : GoBytes)
    (hname : name ≠ "") (hmiss : mcGet mc name = "")
    (hcross : sniffAccum [] chunks = some pre) (hdet : sniff pre ≠ "") :
    ("Content-Type", sniff pre) ∈
      (runWrites sniff ⟨mc, out, newRespWriter mc name ""⟩ chunks).out.headers ∧
    mcGet (runWrites sniff ⟨mc, out, newRespWriter mc name ""⟩ chunks).mc name = sniff pre ∧
    (runWrites sniff ⟨mc, out, newRespWriter mc name ""⟩ chunks).w.headerWritten = true ∧
    (runWrites sniff ⟨mc, out, newRespWriter mc name ""⟩ chunks).out.status =
      some (out.status.getD 200) := by
  have hnw : newRespWriter mc name "" = ⟨name, "", [], false⟩ := by
    rw [newRespWriter, if_pos (And.intro hname (Or.inl rfl)), if_neg (by simp [hmiss])]
  rw [hnw]
  exact runWrites_cross sniff name hname chunks [] mc out pre hcross hdet

/-- Witness for C7's amended theorem: short key "k", empty cache, a
single 1 KiB write, a sniffer that reports text/plain on a full 1 KiB. -/
theorem respWriter_sniffs_witness :
    ((("k" : String) ≠ "") ∧ mcGet ([] : MimeCache) "k" = "" ∧
      sniffAccum [] [preW] = some preW ∧ sniffW preW ≠ "") ∧
    (("Content-Type", sniffW preW) ∈
        (runWrites sniffW ⟨[], ⟨[], none, []⟩, newRespWriter [] "k" ""⟩ [preW]).out.headers ∧
      mcGet (runWrites sniffW ⟨[], ⟨[], none, []⟩, newRespWriter [] "k" ""⟩ [preW]).mc "k" =
        sniffW preW ∧
      (runWrites sniffW ⟨[], ⟨[], none, []⟩, newRespWriter [] "k" ""⟩ [preW]).w.headerWritten
        = true ∧
      (runWrites sniffW ⟨[], ⟨[], none, []⟩, newRespWriter [] "k" ""⟩ [preW]).out.status
        = some 200) := by
  have hk : ("k" : String) ≠ "" := by decide
  have hl : preW.length = 1024 := by rw [preW, List.length_replicate]
  have hsa : sniffAccum [] [preW] = some preW := by
    rw [sniffAccum, List.nil_append, hl, if_neg (by omega)]
  have hd : sniffW preW ≠ "" := by
    simp only [sniffW, hl]
    rw [if_pos (by omega : (1024 : Nat) ≤ 1024)]
    decide
  exact ⟨⟨hk, rfl, hsa, hd⟩,
    respWriter_sniffs_at_1KiB sniffW [] ⟨[], none, []⟩ "k" [preW] preW hk rfl hsa hd⟩

/-- C7 counterexample: with no caller MIME type and a cache miss but a
3-byte body, the response writer never consults the sniffer — although
the (constant) sniffer would have said text/plain: after the write and
Close, no header at all was installed and the MimeCache was not written;
the body merely got flushed. The claim's unconditional "hands the
buffered prefix to the sniffer, installs the detected type and writes it
into the MimeCache" is false for bodies shorter than 1 KiB. -/
theorem respWriter_short_body_cex :
    (respClose (runWrites (fun _ => "text/plain")
        ⟨[], ⟨[], none, []⟩, newRespWriter [] "k" ""⟩ [[97, 98, 99]])).out.headers = [] ∧
    mcGet (respClose (runWrites (fun _ => "text/plain")
        ⟨[], ⟨[], none, []⟩, newRespWriter [] "k" ""⟩ [[97, 98, 99]])).mc "k" = "" ∧
    (respClose (runWrites (fun _ => "text/plain")
        ⟨[], ⟨[], none, []⟩, newRespWriter [] "k" ""⟩ [[97, 98, 99]])).out.body
      = [97, 98, 99] :=
  ⟨rfl, rfl, rfl⟩

end Camproxy
